import Mathlib

/-
  Shallow embedding of pg_wait_sampling's collector (collector.c).

  The profile hash table is modelled as a list of entries with pairwise
  distinct keys (the hash-table invariant); the history ring is a fixed
  length list of optional items plus a monotone write cursor.  Usage
  values (C doubles holding small sums and products by 0.99) are
  modelled as rationals.  The make-space loop of probe_waits can
  genuinely diverge (maxProfileEntries = 0), so it is modelled with
  explicit fuel returning Option.
-/

namespace PgWaitSampling

/-- USAGE_INIT constant from collector.c. -/
def USAGE_INIT : ℚ := 1

/-- USAGE_INCREASE constant from collector.c. -/
def USAGE_INCREASE : ℚ := 1

/-- USAGE_DECREASE_FACTOR constant from collector.c. -/
def USAGE_DECREASE_FACTOR : ℚ := 99 / 100

/-- USAGE_DEALLOC_PERCENT constant from collector.c. -/
def USAGE_DEALLOC_PERCENT : ℕ := 5

/-- USAGE_DEALLOC_MIN_NUM constant from collector.c. -/
def USAGE_DEALLOC_MIN_NUM : ℕ := 10

/-- ProfileHashKey from pg_wait_sampling.h as used by probe_waits:
pid, wait_event_info, queryid. -/
structure ProfileHashKey where
  pid : ℕ
  wait_event_info : ℕ
  queryid : ℕ
deriving DecidableEq, Repr

/-- ProfileHashEntry: key plus observation counter and decaying usage. -/
structure ProfileHashEntry where
  key : ProfileHashKey
  counter : ℕ
  usage : ℚ
deriving DecidableEq, Repr

/-- The profile hash table, modelled as a list of entries. -/
abbrev ProfileTable := List ProfileHashEntry

/-- Ordering used by entry_cmp in collector.c: increasing usage order. -/
def entryLE (a b : ProfileHashEntry) : Prop := a.usage ≤ b.usage

instance : DecidableRel entryLE := fun a b =>
  inferInstanceAs (Decidable (a.usage ≤ b.usage))

instance : IsTotal ProfileHashEntry entryLE := ⟨fun a b => le_total a.usage b.usage⟩

instance : IsTrans ProfileHashEntry entryLE := ⟨fun _ _ _ h1 h2 => le_trans h1 h2⟩

/-- The decay applied to each entry while pgws_entry_dealloc scans the
table: usage multiplied by USAGE_DECREASE_FACTOR. -/
def decay_entry (e : ProfileHashEntry) : ProfileHashEntry :=
  { e with usage := e.usage * USAGE_DECREASE_FACTOR }

/-- Victim count of pgws_entry_dealloc:
max(USAGE_DEALLOC_MIN_NUM, n * USAGE_DEALLOC_PERCENT / 100) clamped to n,
where n is the number of entries and / is C truncating division. -/
def nvictimsOf (n : ℕ) : ℕ :=
  min (max USAGE_DEALLOC_MIN_NUM (n * USAGE_DEALLOC_PERCENT / 100)) n

/-- pgws_entry_dealloc from collector.c: decay every entry's usage, sort
the entries into increasing usage order, and remove the first nvictims
of them (removal is by key, as hash_search HASH_REMOVE does). -/
def pgws_entry_dealloc (tbl : ProfileTable) : ProfileTable :=
  let decayed := tbl.map decay_entry
  let sorted := List.insertionSort entryLE decayed
  let nvictims := nvictimsOf decayed.length
  let victims := sorted.take nvictims
  decayed.filter fun e => decide (e.key ∉ victims.map ProfileHashEntry.key)

/-- The make-space loop of probe_waits:
while (hash_get_num_entries >= pgwsMaxProfileEntries) pgws_entry_dealloc().
Modelled with explicit fuel; none means the fuel ran out (the C loop
would still be running). -/
def make_space (maxEntries : ℕ) : ℕ → ProfileTable → Option ProfileTable
  | 0, tbl => if maxEntries ≤ tbl.length then none else some tbl
  | fuel + 1, tbl =>
      if maxEntries ≤ tbl.length then
        make_space maxEntries fuel (pgws_entry_dealloc tbl)
      else some tbl

/-- Hash lookup by key (hash_search HASH_FIND). -/
def lookupEntry (k : ProfileHashKey) (tbl : ProfileTable) : Option ProfileHashEntry :=
  tbl.find? fun e => decide (e.key = k)

/-- Update of an existing entry in probe_waits: counter++ and
usage += USAGE_INCREASE on the entry with the observed key. -/
def bump_entry (k : ProfileHashKey) (e : ProfileHashEntry) : ProfileHashEntry :=
  if e.key = k then
    { e with counter := e.counter + 1, usage := e.usage + USAGE_INCREASE }
  else e

/-- The write_profile branch of probe_waits for one observed key: if the
key is present, bump it; otherwise run the make-space loop until the
table is strictly below maxEntries and insert a fresh entry with
counter 1 and usage USAGE_INIT.  The fuel given to the loop covers one
full drain of the table; none is returned only where the C loop would
not have terminated. -/
def profile_observe (maxEntries : ℕ) (k : ProfileHashKey) (tbl : ProfileTable) :
    Option ProfileTable :=
  match lookupEntry k tbl with
  | some _ => some (tbl.map (bump_entry k))
  | none =>
      (make_space maxEntries (tbl.length + 1) tbl).map
        fun t => t ++ [⟨k, 1, USAGE_INIT⟩]

/-- An item of the history ring: pid, wait_event_info, queryid and the
timestamp taken when the item was written. -/
structure HistoryItem where
  pid : ℕ
  wait_event_info : ℕ
  queryid : ℕ
  ts : ℕ
deriving DecidableEq, Repr

/-- The history ring: a fixed block of slots plus the monotone write
cursor pgws_history_ring index.  Slots never written hold none. -/
structure HistoryRing where
  items : List (Option HistoryItem)
  index : ℕ
deriving DecidableEq, Repr

/-- A fresh ring of bufSize empty slots with cursor 0. -/
def initRing (bufSize : ℕ) : HistoryRing :=
  { items := List.replicate bufSize none, index := 0 }

/-- The write_history branch of probe_waits: store the item at slot
index % bufSize, then increment the cursor. -/
def write_history_item (bufSize : ℕ) (r : HistoryRing) (it : HistoryItem) : HistoryRing :=
  { items := r.items.set (r.index % bufSize) (some it), index := r.index + 1 }

/-- Writing a whole sequence of items into the ring, in order. -/
def write_items (bufSize : ℕ) (r : HistoryRing) (its : List HistoryItem) : HistoryRing :=
  its.foldl (write_history_item bufSize) r

/-- One PGPROC slot as read by probe_waits: proc pid, proc
wait_event_info, and the matching pgws_proc_queryids cell. -/
structure ProcSlot where
  pid : ℕ
  wait_event_info : ℕ
  queryid : ℕ
deriving DecidableEq, Repr

/-- The configuration globals of the collector. -/
structure Config where
  whetherProfileQueryId : Bool
  whetherProfilePid : Bool
  maxProfileEntries : ℕ
  historyBufferSize : ℕ
  historyPeriod : ℕ
  profilePeriod : ℕ
deriving Repr

/-- The shared structures written by probe_waits. -/
structure CollectorState where
  ring : HistoryRing
  profile : ProfileTable
deriving Repr

/-- The profile key built by probe_waits for one slot: pid is zeroed
unless pgwsWhetherProfilePid, queryid is zeroed (beforehand) unless
pgwsWhetherProfileQueryId. -/
def probe_key (cfg : Config) (pid wei qid : ℕ) : ProfileHashKey :=
  ⟨if cfg.whetherProfilePid then pid else 0, wei,
   if cfg.whetherProfileQueryId then qid else 0⟩

/-- Processing of one PGPROC slot by probe_waits: skip if pid = 0 or
wait_event_info = 0; otherwise write the history item when
write_history and update the profile when write_profile. -/
def probe_slot (cfg : Config) (wh wp : Bool) (now : ℕ) (proc : ProcSlot)
    (st : CollectorState) : Option CollectorState :=
  if proc.pid = 0 then some st
  else if proc.wait_event_info = 0 then some st
  else
    let queryId := if cfg.whetherProfileQueryId then proc.queryid else 0
    let item : HistoryItem := ⟨proc.pid, proc.wait_event_info, queryId, now⟩
    let st1 :=
      if wh then
        { st with ring := write_history_item cfg.historyBufferSize st.ring item }
      else st
    if wp then
      (profile_observe cfg.maxProfileEntries
          ⟨if cfg.whetherProfilePid then proc.pid else 0, proc.wait_event_info, queryId⟩
          st1.profile).map
        fun p => { st1 with profile := p }
    else some st1

/-- probe_waits from collector.c: one pass over all slots. -/
def probe_waits (cfg : Config) (wh wp : Bool) (now : ℕ) (procs : List ProcSlot)
    (st : CollectorState) : Option CollectorState :=
  procs.foldlM (fun s proc => probe_slot cfg wh wp now proc s) st

/-- Folding a sequence of profile observations (the write_profile part
of successive probes, one observed key at a time). -/
def profile_run (maxEntries : ℕ) (tbl : ProfileTable) (ks : List ProfileHashKey) :
    Option ProfileTable :=
  ks.foldlM (fun t k => profile_observe maxEntries k t) tbl

/-- millisecs_diff from collector.c, on microsecond timestamps:
TimestampDifference yields seconds and leftover microseconds (clamped
at 0 when tz2 is not later), combined as secs * 1000 + microsecs / 1000. -/
def millisecs_diff (tz1 tz2 : ℕ) : ℕ :=
  (tz2 - tz1) / 1000000 * 1000 + (tz2 - tz1) % 1000000 / 1000

/-- The sampler's per-stream timing state: the two last-sample
timestamps, in microseconds. -/
structure SamplerState where
  history_ts : ℕ
  profile_ts : ℕ
deriving DecidableEq, Repr

/-- What one iteration of the pgws_collector_main loop decides: the two
write flags, the new timestamps, and the timeout passed to WaitLatch
(none when WL_TIMEOUT is not set, i.e. an indefinite wait). -/
structure IterDecision where
  write_history : Bool
  write_profile : Bool
  next : SamplerState
  timeout : Option ℕ
deriving DecidableEq, Repr

/-- One iteration of the pgws_collector_main scheduling loop (lines
297-341 of collector.c), given the timestamp read at the top of the
iteration. -/
def pgws_collector_iteration (cfg : Config) (current_ts : ℕ) (st : SamplerState) :
    IterDecision :=
  let history_diff := millisecs_diff st.history_ts current_ts
  let profile_diff := millisecs_diff st.profile_ts current_ts
  let wh := decide (cfg.historyPeriod ≠ 0 ∧ cfg.historyPeriod ≤ history_diff)
  let wp := decide (cfg.profilePeriod ≠ 0 ∧ cfg.profilePeriod ≤ profile_diff)
  let history_ts1 := if wh then current_ts else st.history_ts
  let profile_ts1 := if wp then current_ts else st.profile_ts
  let history_diff1 := if wh then 0 else history_diff
  let profile_diff1 := if wp then 0 else profile_diff
  let history_timeout :=
    if history_diff1 ≤ cfg.historyPeriod then cfg.historyPeriod - history_diff1 else 0
  let profile_timeout :=
    if profile_diff1 ≤ cfg.profilePeriod then cfg.profilePeriod - profile_diff1 else 0
  let timeout :=
    if cfg.profilePeriod ≠ 0 ∧ cfg.historyPeriod = 0 then some profile_timeout
    else if cfg.historyPeriod ≠ 0 ∧ cfg.profilePeriod = 0 then some history_timeout
    else if cfg.historyPeriod ≠ 0 ∧ cfg.profilePeriod ≠ 0 then
      some (min history_timeout profile_timeout)
    else none
  ⟨wh, wp, ⟨history_ts1, profile_ts1⟩, timeout⟩

/-- An example profile table of eleven entries with distinct keys and
distinct integer usages, used to instantiate concrete statements. -/
def c2WitnessTable : ProfileTable :=
  [⟨⟨1, 7, 0⟩, 1, 1⟩, ⟨⟨2, 7, 0⟩, 1, 2⟩, ⟨⟨3, 7, 0⟩, 1, 3⟩, ⟨⟨4, 7, 0⟩, 1, 4⟩,
   ⟨⟨5, 7, 0⟩, 1, 5⟩, ⟨⟨6, 7, 0⟩, 1, 6⟩, ⟨⟨7, 7, 0⟩, 1, 7⟩, ⟨⟨8, 7, 0⟩, 1, 8⟩,
   ⟨⟨9, 7, 0⟩, 1, 9⟩, ⟨⟨10, 7, 0⟩, 1, 10⟩, ⟨⟨11, 7, 0⟩, 1, 11⟩]

section Lemmas

/-- Writing into the ring always advances the cursor by one. -/
theorem write_history_item_index (bufSize : ℕ) (r : HistoryRing) (it : HistoryItem) :
    (write_history_item bufSize r it).index = r.index + 1 := rfl

/-- The guarded timeout subtraction of collector.c is truncating
subtraction. -/
theorem timeout_sub (p d : ℕ) : (if d ≤ p then p - d else 0) = p - d := by
  split <;> omega

/-- The victim count is positive on a nonempty table. -/
theorem nvictimsOf_pos (n : ℕ) (h : 1 ≤ n) : 1 ≤ nvictimsOf n := by
  unfold nvictimsOf USAGE_DEALLOC_MIN_NUM USAGE_DEALLOC_PERCENT
  omega

/-- On a table of at most USAGE_DEALLOC_MIN_NUM entries the victim count
is the whole table. -/
theorem nvictimsOf_of_le_min (n : ℕ) (h : n ≤ USAGE_DEALLOC_MIN_NUM) : nvictimsOf n = n := by
  unfold nvictimsOf USAGE_DEALLOC_MIN_NUM USAGE_DEALLOC_PERCENT at *
  omega

/-- Eviction on the empty table removes nothing. -/
theorem pgws_entry_dealloc_nil : pgws_entry_dealloc [] = [] := rfl

/-- Eviction on a nonempty table strictly shrinks it. -/
theorem pgws_entry_dealloc_length_lt (tbl : ProfileTable) (h : 1 ≤ tbl.length) :
    (pgws_entry_dealloc tbl).length < tbl.length := by
  simp only [pgws_entry_dealloc]
  set decayed := tbl.map decay_entry with hdec
  set sorted := List.insertionSort entryLE decayed with hsort
  set victims := sorted.take (nvictimsOf decayed.length) with hvic
  have hlen : decayed.length = tbl.length := by simp [hdec]
  have hslen : sorted.length = decayed.length := (List.perm_insertionSort entryLE decayed).length_eq
  have hvpos : 1 ≤ nvictimsOf decayed.length := nvictimsOf_pos _ (by omega)
  have hvlen : 0 < victims.length := by
    rw [hvic, List.length_take]
    omega
  obtain ⟨v, hv⟩ : ∃ v, v ∈ victims := List.exists_mem_of_length_pos hvlen
  have hvdec : v ∈ decayed := by
    have hvs : v ∈ sorted := List.take_subset _ _ hv
    exact (List.perm_insertionSort entryLE decayed).subset hvs
  have hkey : (decide (v.key ∉ victims.map ProfileHashEntry.key) : Bool) = false := by
    simp only [decide_eq_false_iff_not, not_not]
    exact List.mem_map_of_mem ProfileHashEntry.key hv
  calc (decayed.filter fun e => decide (e.key ∉ victims.map ProfileHashEntry.key)).length
      = decayed.countP fun e => decide (e.key ∉ victims.map ProfileHashEntry.key) :=
        (List.countP_eq_length_filter _ _).symm
    _ < decayed.length := by
        refine lt_of_le_of_ne (List.countP_le_length _) fun hcon => ?_
        have hall := (List.countP_eq_length (p := fun e =>
          decide (e.key ∉ victims.map ProfileHashEntry.key)) (l := decayed)).mp hcon v hvdec
        rw [hkey] at hall
        exact Bool.false_ne_true hall
    _ = tbl.length := hlen

/-- Eviction on a table of at most USAGE_DEALLOC_MIN_NUM entries empties
it entirely. -/
theorem pgws_entry_dealloc_eq_nil (tbl : ProfileTable)
    (h : tbl.length ≤ USAGE_DEALLOC_MIN_NUM) : pgws_entry_dealloc tbl = [] := by
  simp only [pgws_entry_dealloc]
  set decayed := tbl.map decay_entry with hdec
  set sorted := List.insertionSort entryLE decayed with hsort
  have hlen : decayed.length = tbl.length := by simp [hdec]
  have hslen : sorted.length = decayed.length := (List.perm_insertionSort entryLE decayed).length_eq
  have hn : nvictimsOf decayed.length = decayed.length := nvictimsOf_of_le_min _ (by omega)
  rw [hn, ← hslen, List.take_length]
  rw [List.filter_eq_nil_iff]
  intro e he
  simp only [decide_eq_true_eq, Decidable.not_not]
  refine List.mem_map_of_mem ProfileHashEntry.key ?_
  exact (List.perm_insertionSort entryLE decayed).symm.subset he

/-- A successful make-space loop always exits strictly below the
capacity bound. -/
theorem make_space_lt (m : ℕ) : ∀ fuel tbl t, make_space m fuel tbl = some t → t.length < m := by
  intro fuel
  induction fuel with
  | zero =>
      intro tbl t h
      unfold make_space at h
      by_cases hc : m ≤ tbl.length
      · simp [hc] at h
      · simp [hc] at h
        subst h
        omega
  | succ fuel ih =>
      intro tbl t h
      unfold make_space at h
      by_cases hc : m ≤ tbl.length
      · simp only [hc, if_pos] at h
        exact ih _ _ h
      · simp [hc] at h
        subst h
        omega

/-- With a positive capacity bound, the make-space loop terminates on
any table once given fuel beyond the table size. -/
theorem make_space_total (m : ℕ) (hm : 1 ≤ m) :
    ∀ fuel tbl, tbl.length < fuel → ∃ t, make_space m fuel tbl = some t := by
  intro fuel
  induction fuel with
  | zero => intro tbl h; omega
  | succ fuel ih =>
      intro tbl h
      unfold make_space
      by_cases hc : m ≤ tbl.length
      · simp only [hc, if_pos]
        refine ih _ ?_
        have := pgws_entry_dealloc_length_lt tbl (by omega)
        omega
      · exact ⟨tbl, by simp [hc]⟩

/-- With a positive capacity bound, one profile observation always
completes. -/
theorem profile_observe_total (m : ℕ) (hm : 1 ≤ m) (k : ProfileHashKey) (tbl : ProfileTable) :
    ∃ t, profile_observe m k tbl = some t := by
  unfold profile_observe
  cases hl : lookupEntry k tbl with
  | some e => exact ⟨_, rfl⟩
  | none =>
      obtain ⟨t, ht⟩ := make_space_total m hm (tbl.length + 1) tbl (by omega)
      exact ⟨t ++ [⟨k, 1, USAGE_INIT⟩], by rw [ht]; rfl⟩

/-- One profile observation keeps the table within the capacity bound. -/
theorem profile_observe_length_le (m : ℕ) (k : ProfileHashKey) (tbl t : ProfileTable)
    (hle : tbl.length ≤ m) (h : profile_observe m k tbl = some t) : t.length ≤ m := by
  unfold profile_observe at h
  cases hl : lookupEntry k tbl with
  | some e =>
      rw [hl] at h
      simp only [Option.some_inj] at h
      subst h
      simpa using hle
  | none =>
      rw [hl] at h
      cases hms : make_space m (tbl.length + 1) tbl with
      | none => rw [hms] at h; simp at h
      | some t0 =>
          rw [hms] at h
          simp at h
          subst h
          have hlt := make_space_lt m (tbl.length + 1) tbl t0 hms
          simp only [List.length_append, List.length_singleton]
          omega

/-- A whole run of profile observations keeps the table within the
capacity bound. -/
theorem profile_run_length_le (m : ℕ) (ks : List ProfileHashKey) :
    ∀ tbl t, tbl.length ≤ m → profile_run m tbl ks = some t → t.length ≤ m := by
  induction ks with
  | nil =>
      intro tbl t hle h
      simp only [profile_run, List.foldlM_nil, Option.pure_def, Option.some_inj] at h
      subst h
      omega
  | cons k ks ih =>
      intro tbl t hle h
      simp only [profile_run, List.foldlM_cons] at h
      cases hobs : profile_observe m k tbl with
      | none => rw [hobs] at h; simp at h
      | some t1 =>
          rw [hobs] at h
          exact ih t1 t (profile_observe_length_le m k tbl t1 hle hobs) h

/-- With capacity bound 0, the make-space loop never exits even on the
empty table. -/
theorem make_space_zero_none : ∀ fuel, make_space 0 fuel [] = none := by
  intro fuel
  induction fuel with
  | zero => rfl
  | succ fuel ih =>
      unfold make_space
      simpa [pgws_entry_dealloc_nil] using ih

/-- A fresh key is inserted only after the make-space loop has run. -/
theorem profile_observe_fresh (m : ℕ) (k : ProfileHashKey) (tbl : ProfileTable)
    (h : lookupEntry k tbl = none) :
    profile_observe m k tbl =
      (make_space m (tbl.length + 1) tbl).map fun t => t ++ [⟨k, 1, USAGE_INIT⟩] := by
  unfold profile_observe
  rw [h]

/-- A fresh key observed with the table strictly below capacity is
appended directly: the make-space loop does nothing. -/
theorem profile_observe_fresh_roomy (m : ℕ) (k : ProfileHashKey) (tbl : ProfileTable)
    (hlt : tbl.length < m) (h : lookupEntry k tbl = none) :
    profile_observe m k tbl = some (tbl ++ [⟨k, 1, USAGE_INIT⟩]) := by
  rw [profile_observe_fresh m k tbl h]
  unfold make_space
  rw [if_neg (by omega)]
  rfl

/-- An observed key that is already present is bumped in place. -/
theorem profile_observe_found (m : ℕ) (k : ProfileHashKey) (tbl : ProfileTable)
    (e0 : ProfileHashEntry) (h : lookupEntry k tbl = some e0) :
    profile_observe m k tbl = some (tbl.map (bump_entry k)) := by
  unfold profile_observe
  rw [h]

/-- Unfolding of lookupEntry on a cons cell. -/
theorem lookupEntry_cons (k : ProfileHashKey) (e : ProfileHashEntry) (t : ProfileTable) :
    lookupEntry k (e :: t) = if e.key = k then some e else lookupEntry k t := by
  by_cases h : e.key = k
  · rw [if_pos h]
    exact List.find?_cons_of_pos _ (by simp [h])
  · rw [if_neg h]
    exact List.find?_cons_of_neg _ (by simp [h])

/-- lookupEntry distributes over append, preferring the left table. -/
theorem lookupEntry_append (k : ProfileHashKey) (t1 t2 : ProfileTable) :
    lookupEntry k (t1 ++ t2) = (lookupEntry k t1).orElse fun _ => lookupEntry k t2 := by
  induction t1 with
  | nil => simp [lookupEntry]
  | cons a t ih =>
      rw [List.cons_append, lookupEntry_cons, lookupEntry_cons]
      by_cases h : a.key = k
      · simp [h]
      · simp only [h, if_neg, ite_false]
        exact ih

/-- bump_entry never changes the key. -/
theorem bump_entry_key (k : ProfileHashKey) (e : ProfileHashEntry) :
    (bump_entry k e).key = e.key := by
  unfold bump_entry
  split <;> rfl

/-- bump_entry leaves entries with a different key untouched. -/
theorem bump_entry_of_ne (k : ProfileHashKey) (e : ProfileHashEntry) (h : e.key ≠ k) :
    bump_entry k e = e := by
  unfold bump_entry
  rw [if_neg h]

/-- lookupEntry commutes with a whole-table bump map. -/
theorem lookupEntry_map_bump (k k0 : ProfileHashKey) (tbl : ProfileTable) :
    lookupEntry k (tbl.map (bump_entry k0)) = (lookupEntry k tbl).map (bump_entry k0) := by
  induction tbl with
  | nil => rfl
  | cons a t ih =>
      rw [List.map_cons, lookupEntry_cons, lookupEntry_cons]
      by_cases h : a.key = k
      · rw [if_pos (by rw [bump_entry_key]; exact h), if_pos h]
        rfl
      · rw [if_neg (by rw [bump_entry_key]; exact h), if_neg h]
        exact ih

/-- Invariant of an eviction-free profile run: each key's entry carries
its occurrence count as counter, and a usage numerically equal to that
count (USAGE_INIT = USAGE_INCREASE = 1). -/
theorem profile_run_no_evict (m : ℕ) :
    ∀ (rest processed : List ProfileHashKey) (tbl : ProfileTable),
      processed.length + rest.length ≤ m →
      tbl.length ≤ processed.length →
      (∀ k, lookupEntry k tbl =
        if processed.count k = 0 then none
        else some ⟨k, processed.count k, (processed.count k : ℚ)⟩) →
      ∃ t, profile_run m tbl rest = some t ∧
        t.length ≤ processed.length + rest.length ∧
        (∀ k, lookupEntry k t =
          if (processed ++ rest).count k = 0 then none
          else some ⟨k, (processed ++ rest).count k, ((processed ++ rest).count k : ℚ)⟩) := by
  intro rest
  induction rest with
  | nil =>
      intro processed tbl hm hlen hinv
      exact ⟨tbl, rfl, by omega, by simpa using hinv⟩
  | cons k0 rest ih =>
      intro processed tbl hm hlen hinv
      simp only [List.length_cons] at hm
      by_cases hc : processed.count k0 = 0
      · have hlk : lookupEntry k0 tbl = none := by
          have hk0 := hinv k0
          rwa [if_pos hc] at hk0
        have hobs := profile_observe_fresh_roomy m k0 tbl (by omega) hlk
        have hstep : profile_run m tbl (k0 :: rest) =
            profile_run m (tbl ++ [⟨k0, 1, USAGE_INIT⟩]) rest := by
          simp [profile_run, List.foldlM_cons, hobs]
        have hinv2 : ∀ k, lookupEntry k (tbl ++ [(⟨k0, 1, USAGE_INIT⟩ : ProfileHashEntry)]) =
            if (processed ++ [k0]).count k = 0 then none
            else some ⟨k, (processed ++ [k0]).count k, ((processed ++ [k0]).count k : ℚ)⟩ := by
          intro k
          rw [lookupEntry_append, hinv k]
          by_cases hk : k0 = k
          · subst hk
            rw [if_pos hc]
            have hcnt : (processed ++ [k0]).count k0 = 1 := by
              simp [List.count_append, hc]
            rw [if_neg (by omega), hcnt]
            simp [lookupEntry_cons, lookupEntry, USAGE_INIT]
          · have hcnt : (processed ++ [k0]).count k = processed.count k := by
              simp [List.count_append, List.count_cons, hk]
            rw [hcnt]
            by_cases h0 : processed.count k = 0
            · rw [if_pos h0]
              simp [lookupEntry_cons, lookupEntry, hk]
            · rw [if_neg h0]
              simp
        obtain ⟨t, ht, htlen, htinv⟩ := ih (processed ++ [k0]) (tbl ++ [⟨k0, 1, USAGE_INIT⟩])
          (by simp; omega) (by simp; omega) hinv2
        refine ⟨t, by rw [hstep]; exact ht, ?_, ?_⟩
        · simp only [List.length_append, List.length_cons, List.length_nil] at htlen ⊢
          omega
        · intro k
          have hfin := htinv k
          rwa [List.append_assoc, List.singleton_append] at hfin
      · have hlk : lookupEntry k0 tbl =
            some ⟨k0, processed.count k0, (processed.count k0 : ℚ)⟩ := by
          have hk0 := hinv k0
          rwa [if_neg hc] at hk0
        have hobs := profile_observe_found m k0 tbl _ hlk
        have hstep : profile_run m tbl (k0 :: rest) =
            profile_run m (tbl.map (bump_entry k0)) rest := by
          simp [profile_run, List.foldlM_cons, hobs]
        have hinv2 : ∀ k, lookupEntry k (tbl.map (bump_entry k0)) =
            if (processed ++ [k0]).count k = 0 then none
            else some ⟨k, (processed ++ [k0]).count k, ((processed ++ [k0]).count k : ℚ)⟩ := by
          intro k
          rw [lookupEntry_map_bump, hinv k]
          by_cases hk : k0 = k
          · subst hk
            have hcnt : (processed ++ [k0]).count k0 = processed.count k0 + 1 := by
              simp [List.count_append]
            rw [if_neg hc, if_neg (by omega), hcnt]
            simp only [Option.map_some']
            unfold bump_entry
            rw [if_pos rfl]
            simp [USAGE_INCREASE]
          · have hcnt : (processed ++ [k0]).count k = processed.count k := by
              simp [List.count_append, List.count_cons, hk]
            rw [hcnt]
            by_cases h0 : processed.count k = 0
            · rw [if_pos h0]
              rfl
            · rw [if_neg h0]
              simp only [Option.map_some']
              rw [bump_entry_of_ne k0 _ (by simp; exact fun hh => hk hh.symm)]
        obtain ⟨t, ht, htlen, htinv⟩ := ih (processed ++ [k0]) (tbl.map (bump_entry k0))
          (by simp; omega) (by simp; omega) hinv2
        refine ⟨t, by rw [hstep]; exact ht, ?_, ?_⟩
        · simp only [List.length_append, List.length_cons, List.length_nil] at htlen ⊢
          omega
        · intro k
          have hfin := htinv k
          rwa [List.append_assoc, List.singleton_append] at hfin

/-- Unfolding of a ring write sequence on a cons cell. -/
theorem write_items_cons (bufSize : ℕ) (r : HistoryRing) (x : HistoryItem)
    (its : List HistoryItem) :
    write_items bufSize r (x :: its) =
      write_items bufSize (write_history_item bufSize r x) its := rfl

/-- The cursor after a write sequence is the old cursor plus the number
of items written: it only ever increments. -/
theorem write_items_index (bufSize : ℕ) :
    ∀ (its : List HistoryItem) (r : HistoryRing),
      (write_items bufSize r its).index = r.index + its.length := by
  intro its
  induction its with
  | nil => intro r; simp [write_items]
  | cons x its ih =>
      intro r
      rw [write_items_cons, ih]
      simp [write_history_item]
      omega

/-- A write sequence never changes the number of slots. -/
theorem write_items_items_length (bufSize : ℕ) :
    ∀ (its : List HistoryItem) (r : HistoryRing),
      (write_items bufSize r its).items.length = r.items.length := by
  intro its
  induction its with
  | nil => intro r; rfl
  | cons x its ih =>
      intro r
      rw [write_items_cons, ih]
      simp [write_history_item]

/-- A slot hit by none of the writes of a sequence keeps its content. -/
theorem write_items_get_untouched (bufSize : ℕ) :
    ∀ (its : List HistoryItem) (r : HistoryRing) (s : ℕ),
      (∀ j, j < its.length → (r.index + j) % bufSize ≠ s) →
      (write_items bufSize r its).items[s]? = r.items[s]? := by
  intro its
  induction its with
  | nil => intro r s _; rfl
  | cons x its ih =>
      intro r s h
      rw [write_items_cons]
      rw [ih _ s ?_]
      · apply List.getElem?_set_ne
        have h0 := h 0 (by simp)
        simpa using h0
      · intro j hj
        have hnext := h (j + 1) (by simp; omega)
        simp only [write_history_item]
        have harith : r.index + 1 + j = r.index + (j + 1) := by omega
        rw [harith]
        exact hnext

/-- After a write sequence, a write index whose slot is not revisited by
any later write of the sequence ends up stored at its slot. -/
theorem write_items_get_last (bufSize : ℕ) (hC : 0 < bufSize) :
    ∀ (its : List HistoryItem) (r : HistoryRing) (j : ℕ) (hj : j < its.length),
      r.items.length = bufSize →
      (∀ j2, j < j2 → j2 < its.length →
        (r.index + j2) % bufSize ≠ (r.index + j) % bufSize) →
      (write_items bufSize r its).items[(r.index + j) % bufSize]? =
        some (some (its.get ⟨j, hj⟩)) := by
  intro its
  induction its with
  | nil => intro r j hj; simp at hj
  | cons x its ih =>
      intro r j hj hrlen hnc
      match j with
      | 0 =>
          rw [write_items_cons]
          rw [write_items_get_untouched bufSize its _ _ ?_]
          · simp only [write_history_item, Nat.add_zero]
            apply List.getElem?_set_eq_of_lt
            rw [hrlen]
            exact Nat.mod_lt _ hC
          · intro j2 hj2
            have hnext := hnc (j2 + 1) (by omega) (by simp; omega)
            simp only [write_history_item]
            have harith : r.index + 1 + j2 = r.index + (j2 + 1) := by omega
            rw [harith]
            simpa using hnext
      | j1 + 1 =>
          rw [write_items_cons]
          have harith : r.index + (j1 + 1) =
              (write_history_item bufSize r x).index + j1 := by
            simp [write_history_item]
            omega
          rw [harith]
          rw [ih (write_history_item bufSize r x) j1 (by simpa using hj) ?hlen ?hnc2]
          case hlen => simp [write_history_item, hrlen]
          case hnc2 =>
            intro j2 hj2 hj2len
            have hnext := hnc (j2 + 1) (by omega) (by simp; omega)
            simp only [write_history_item]
            have ha : r.index + 1 + j2 = r.index + (j2 + 1) := by omega
            have hb : r.index + 1 + j1 = r.index + (j1 + 1) := by omega
            rw [ha, hb]
            exact hnext
          rfl

/-- In a list sorted by usage with pairwise distinct usages, membership
in the first n elements is exactly having fewer than n entries of
strictly smaller usage. -/
theorem mem_take_sorted_iff :
    ∀ (l : List ProfileHashEntry), l.Sorted entryLE →
      (l.map ProfileHashEntry.usage).Nodup →
      ∀ (n : ℕ) (x : ProfileHashEntry), x ∈ l →
        (x ∈ l.take n ↔
          (l.filter fun y => decide (y.usage < x.usage)).length < n) := by
  intro l
  induction l with
  | nil => intro _ _ n x hx; simp at hx
  | cons a l ih =>
      intro hs hu n x hx
      have hs2 := List.sorted_cons.mp hs
      rw [List.map_cons, List.nodup_cons] at hu
      have hu2 := hu
      match n with
      | 0 => simp
      | n + 1 =>
          rw [List.take_succ_cons]
          by_cases hxa : x = a
          · subst hxa
            have hfil : (x :: l).filter (fun y => decide (y.usage < x.usage)) = [] := by
              rw [List.filter_eq_nil_iff]
              intro y hy
              rcases List.mem_cons.mp hy with hya | hyl
              · subst hya; simp
              · have hle : entryLE x y := hs2.1 y hyl
                simp only [decide_eq_true_eq]
                exact not_lt.mpr hle
            rw [hfil]
            simp
          · have hxl : x ∈ l := by
              rcases List.mem_cons.mp hx with h1 | h2
              · exact absurd h1 hxa
              · exact h2
            have hane : a.usage < x.usage := by
              refine lt_of_le_of_ne (hs2.1 x hxl) fun heq => ?_
              exact hu2.1 (by rw [heq]; exact List.mem_map_of_mem _ hxl)
            have hfil : (a :: l).filter (fun y => decide (y.usage < x.usage)) =
                a :: l.filter (fun y => decide (y.usage < x.usage)) := by
              rw [List.filter_cons_of_pos]
              simpa using hane
            rw [hfil]
            simp only [List.mem_cons, hxa, false_or, List.length_cons]
            rw [ih hs2.2 hu2.2 n x hxl]
            omega

/-- With pairwise distinct keys, membership of a key among the victims
is membership of the entry itself. -/
theorem key_mem_victims_iff (d victims : ProfileTable)
    (hkeys : (d.map ProfileHashEntry.key).Nodup) (hsub : victims ⊆ d)
    (x : ProfileHashEntry) (hx : x ∈ d) :
    x.key ∈ victims.map ProfileHashEntry.key ↔ x ∈ victims := by
  constructor
  · intro h
    obtain ⟨v, hv, hveq⟩ := List.mem_map.mp h
    have hvd : v ∈ d := hsub hv
    have hvx : v = x := List.inj_on_of_nodup_map hkeys hvd hx hveq
    rwa [hvx] at hv
  · intro h
    exact List.mem_map_of_mem _ h

/-- Decaying preserves the key column of the table. -/
theorem decayed_keys (tbl : ProfileTable) :
    (tbl.map decay_entry).map ProfileHashEntry.key = tbl.map ProfileHashEntry.key := by
  rw [List.map_map]
  rfl

/-- Decaying preserves distinctness of the usage column. -/
theorem decayed_usage_nodup (tbl : ProfileTable)
    (h : (tbl.map ProfileHashEntry.usage).Nodup) :
    ((tbl.map decay_entry).map ProfileHashEntry.usage).Nodup := by
  rw [List.map_map]
  have hcomp : ProfileHashEntry.usage ∘ decay_entry =
      (fun q : ℚ => q * USAGE_DECREASE_FACTOR) ∘ ProfileHashEntry.usage := rfl
  rw [hcomp, ← List.map_map]
  refine h.map ?_
  exact mul_left_injective₀ (by norm_num [USAGE_DECREASE_FACTOR])

/-- Decay multiplies every usage by the same positive factor, so the
count of strictly smaller usages is unchanged. -/
theorem count_lt_decay (tbl : ProfileTable) (e : ProfileHashEntry) :
    ((tbl.map decay_entry).filter fun y => decide (y.usage < (decay_entry e).usage)).length =
      (tbl.filter fun y => decide (y.usage < e.usage)).length := by
  rw [← List.countP_eq_length_filter, ← List.countP_eq_length_filter, List.countP_map]
  refine List.countP_congr ?_
  intro y _
  simp only [Function.comp_apply]
  have hiff : (decay_entry y).usage < (decay_entry e).usage ↔ y.usage < e.usage := by
    simp only [decay_entry]
    exact mul_lt_mul_right (by norm_num [USAGE_DECREASE_FACTOR])
  simp [hiff]

/-- The victim count never exceeds the table size. -/
theorem nvictimsOf_le (n : ℕ) : nvictimsOf n ≤ n := min_le_right _ _

/-- Membership in the eviction result is exactly not being one of the
victims, for the decayed table with pairwise distinct keys. -/
theorem mem_dealloc_iff (tbl : ProfileTable)
    (hkeys : (tbl.map ProfileHashEntry.key).Nodup)
    (x : ProfileHashEntry) (hx : x ∈ tbl.map decay_entry) :
    (x ∈ pgws_entry_dealloc tbl ↔
      x ∉ (List.insertionSort entryLE (tbl.map decay_entry)).take (nvictimsOf tbl.length)) := by
  have hperm : List.Perm (List.insertionSort entryLE (tbl.map decay_entry))
      (tbl.map decay_entry) := List.perm_insertionSort entryLE _
  have hdk : ((tbl.map decay_entry).map ProfileHashEntry.key).Nodup := by
    rw [decayed_keys]
    exact hkeys
  have hsub : (List.insertionSort entryLE (tbl.map decay_entry)).take (nvictimsOf tbl.length) ⊆
      tbl.map decay_entry := fun y hy => hperm.subset (List.take_subset _ _ hy)
  simp only [pgws_entry_dealloc, List.length_map]
  rw [List.mem_filter]
  constructor
  · rintro ⟨-, hpred⟩
    rw [decide_eq_true_eq] at hpred
    intro hxv
    exact hpred ((key_mem_victims_iff _ _ hdk hsub x hx).mpr hxv)
  · intro hnv
    refine ⟨hx, ?_⟩
    rw [decide_eq_true_eq]
    intro hkeymem
    exact hnv ((key_mem_victims_iff _ _ hdk hsub x hx).mp hkeymem)

/-- With pairwise distinct keys, one eviction pass removes exactly
nvictims entries. -/
theorem dealloc_length (tbl : ProfileTable)
    (hkeys : (tbl.map ProfileHashEntry.key).Nodup) :
    (pgws_entry_dealloc tbl).length = tbl.length - nvictimsOf tbl.length := by
  have hperm : List.Perm (List.insertionSort entryLE (tbl.map decay_entry))
      (tbl.map decay_entry) := List.perm_insertionSort entryLE _
  have hdk : ((tbl.map decay_entry).map ProfileHashEntry.key).Nodup := by
    rw [decayed_keys]
    exact hkeys
  have hdnodup : (tbl.map decay_entry).Nodup := List.Nodup.of_map _ hdk
  have hsnodup : (List.insertionSort entryLE (tbl.map decay_entry)).Nodup :=
    hperm.nodup_iff.mpr hdnodup
  have hsub : (List.insertionSort entryLE (tbl.map decay_entry)).take (nvictimsOf tbl.length) ⊆
      tbl.map decay_entry := fun y hy => hperm.subset (List.take_subset _ _ hy)
  have hslen : (List.insertionSort entryLE (tbl.map decay_entry)).length = tbl.length := by
    rw [hperm.length_eq, List.length_map]
  simp only [pgws_entry_dealloc, List.length_map]
  rw [← List.countP_eq_length_filter]
  set p : ProfileHashEntry → Bool := fun e => decide (e.key ∉
    (((List.insertionSort entryLE (tbl.map decay_entry)).take
      (nvictimsOf tbl.length)).map ProfileHashEntry.key)) with hpdef
  rw [← hperm.countP_eq]
  conv_lhs =>
    rw [← List.take_append_drop (nvictimsOf tbl.length)
      (List.insertionSort entryLE (tbl.map decay_entry))]
  rw [List.countP_append]
  have htake : ((List.insertionSort entryLE (tbl.map decay_entry)).take
      (nvictimsOf tbl.length)).countP p = 0 := by
    rw [List.countP_eq_zero]
    intro x hxt
    rw [hpdef]
    simp only [decide_eq_true_eq, Decidable.not_not]
    exact List.mem_map_of_mem _ hxt
  have hdrop : ((List.insertionSort entryLE (tbl.map decay_entry)).drop
      (nvictimsOf tbl.length)).countP p =
      ((List.insertionSort entryLE (tbl.map decay_entry)).drop
        (nvictimsOf tbl.length)).length := by
    rw [List.countP_eq_length]
    intro x hxd
    rw [hpdef]
    simp only [decide_eq_true_eq]
    intro hkeymem
    have hxin : x ∈ tbl.map decay_entry := hperm.subset (List.drop_subset _ _ hxd)
    have hxv := (key_mem_victims_iff _ _ hdk hsub x hxin).mp hkeymem
    exact List.disjoint_take_drop hsnodup (le_refl _) hxv hxd
  rw [htake, hdrop, List.length_drop, hslen]
  omega

/-- With pairwise distinct keys and usages, an entry survives eviction
exactly when at least nvictims entries have strictly smaller usage. -/
theorem dealloc_mem_char (tbl : ProfileTable)
    (hkeys : (tbl.map ProfileHashEntry.key).Nodup)
    (husage : (tbl.map ProfileHashEntry.usage).Nodup)
    (e : ProfileHashEntry) (he : e ∈ tbl) :
    (decay_entry e ∈ pgws_entry_dealloc tbl ↔
      nvictimsOf tbl.length ≤ (tbl.filter fun y => decide (y.usage < e.usage)).length) := by
  have hperm : List.Perm (List.insertionSort entryLE (tbl.map decay_entry))
      (tbl.map decay_entry) := List.perm_insertionSort entryLE _
  have hde : decay_entry e ∈ tbl.map decay_entry := List.mem_map_of_mem _ he
  have hse : decay_entry e ∈ List.insertionSort entryLE (tbl.map decay_entry) :=
    hperm.mem_iff.mpr hde
  have hsorted : (List.insertionSort entryLE (tbl.map decay_entry)).Sorted entryLE :=
    List.sorted_insertionSort entryLE _
  have husrt : ((List.insertionSort entryLE (tbl.map decay_entry)).map
      ProfileHashEntry.usage).Nodup :=
    ((hperm.map ProfileHashEntry.usage).nodup_iff).mpr (decayed_usage_nodup tbl husage)
  rw [mem_dealloc_iff tbl hkeys _ hde]
  rw [mem_take_sorted_iff _ hsorted husrt (nvictimsOf tbl.length) _ hse]
  rw [not_lt]
  have hcnt : ((List.insertionSort entryLE (tbl.map decay_entry)).filter
      fun y => decide (y.usage < (decay_entry e).usage)).length =
      (tbl.filter fun y => decide (y.usage < e.usage)).length := by
    rw [← List.countP_eq_length_filter, hperm.countP_eq, List.countP_eq_length_filter]
    exact count_lt_decay tbl e
  rw [hcnt]

end Lemmas

/-- C1: for every sequence of profile observations, after any profile
table insertion completes the number of entries never exceeds the
capacity bound; the bound is enforced by the make-space eviction loop
running before the insertion (the loop exits strictly below the bound,
and a fresh entry is appended only to the loop's result), never after
it. -/
theorem claim_C1 (m : ℕ) :
    (∀ k tbl t, tbl.length ≤ m → profile_observe m k tbl = some t → t.length ≤ m) ∧
    (∀ ks tbl t, tbl.length ≤ m → profile_run m tbl ks = some t → t.length ≤ m) ∧
    (∀ fuel tbl t, make_space m fuel tbl = some t → t.length < m) ∧
    (∀ k tbl, lookupEntry k tbl = none →
      profile_observe m k tbl =
        (make_space m (tbl.length + 1) tbl).map fun t => t ++ [⟨k, 1, USAGE_INIT⟩]) := by
  refine ⟨fun k tbl t h1 h2 => profile_observe_length_le m k tbl t h1 h2,
    fun ks tbl t h1 h2 => profile_run_length_le m ks tbl t h1 h2,
    make_space_lt m,
    fun k tbl h => profile_observe_fresh m k tbl h⟩

/-- Witness for C1: capacity 1, two fresh keys in sequence; the second
insertion evicts the first entry and the table size stays at 1. -/
theorem claim_C1_witness :
    (([] : ProfileTable).length ≤ 1 ∧
      profile_run 1 [] [⟨1, 5, 0⟩, ⟨2, 5, 0⟩] =
        some [⟨⟨2, 5, 0⟩, 1, USAGE_INIT⟩]) ∧
    ([(⟨⟨2, 5, 0⟩, 1, USAGE_INIT⟩ : ProfileHashEntry)] : ProfileTable).length ≤ 1 := by
  have hrun : profile_run 1 [] [(⟨1, 5, 0⟩ : ProfileHashKey), ⟨2, 5, 0⟩] =
      some [⟨⟨2, 5, 0⟩, 1, USAGE_INIT⟩] := by with_unfolding_all rfl
  exact ⟨⟨by decide, hrun⟩,
    (claim_C1 1).2.1 [⟨1, 5, 0⟩, ⟨2, 5, 0⟩] [] _ (by decide) hrun⟩

/-- C2: on a profile table with pairwise distinct keys and pairwise
distinct usage values, one eviction pass removes exactly the nvictims
entries of lowest (post-decay, equivalently pre-decay) usage, where
nvictims = min(max(USAGE_DEALLOC_MIN_NUM, length * USAGE_DEALLOC_PERCENT
/ 100 with truncating division), length): exactly nvictims entries
disappear, and an entry survives (as its once-decayed version) exactly
when at least nvictims entries have strictly smaller usage. -/
theorem claim_C2 (tbl : ProfileTable)
    (hkeys : (tbl.map ProfileHashEntry.key).Nodup)
    (husage : (tbl.map ProfileHashEntry.usage).Nodup) :
    nvictimsOf tbl.length =
      min (max USAGE_DEALLOC_MIN_NUM (tbl.length * USAGE_DEALLOC_PERCENT / 100)) tbl.length ∧
    (pgws_entry_dealloc tbl).length = tbl.length - nvictimsOf tbl.length ∧
    ∀ e ∈ tbl, (decay_entry e ∈ pgws_entry_dealloc tbl ↔
      nvictimsOf tbl.length ≤ (tbl.filter fun y => decide (y.usage < e.usage)).length) :=
  ⟨rfl, dealloc_length tbl hkeys, fun e he => dealloc_mem_char tbl hkeys husage e he⟩

/-- Witness for C2: eleven entries with distinct keys and usages 1..11;
nvictims is 10 and only the highest-usage entry survives, decayed. -/
theorem claim_C2_witness :
    (((c2WitnessTable.map ProfileHashEntry.key).Nodup ∧
      (c2WitnessTable.map ProfileHashEntry.usage).Nodup) ∧
    (pgws_entry_dealloc c2WitnessTable).length =
      c2WitnessTable.length - nvictimsOf c2WitnessTable.length) ∧
    nvictimsOf c2WitnessTable.length = 10 := by
  have h1 : (c2WitnessTable.map ProfileHashEntry.key).Nodup := by decide
  have h2 : (c2WitnessTable.map ProfileHashEntry.usage).Nodup := by decide
  exact ⟨⟨⟨h1, h2⟩, (claim_C2 c2WitnessTable h1 h2).2.1⟩, by decide⟩

/-- C3: with per-process granularity enabled the probe key keeps the
process id, and for a fixed observation sequence short enough that no
eviction intervenes, each distinct key observed k times ends with
counter k and usage USAGE_INIT + (k-1) * USAGE_INCREASE; a new key
starts at counter 1 and usage USAGE_INIT, and a repeated key only gets
its counter incremented and USAGE_INCREASE added to its usage. -/
theorem claim_C3 (cfg : Config) (hpid : cfg.whetherProfilePid = true)
    (hqid : cfg.whetherProfileQueryId = true) (obs : List (ℕ × ℕ × ℕ))
    (hlen : obs.length ≤ cfg.maxProfileEntries) :
    (∀ p w q, probe_key cfg p w q = ⟨p, w, q⟩) ∧
    (∃ t, profile_run cfg.maxProfileEntries []
        (obs.map fun o => probe_key cfg o.1 o.2.1 o.2.2) = some t ∧
      ∀ o ∈ obs,
        1 ≤ (obs.map fun o2 => probe_key cfg o2.1 o2.2.1 o2.2.2).count
              (probe_key cfg o.1 o.2.1 o.2.2) ∧
        lookupEntry (probe_key cfg o.1 o.2.1 o.2.2) t =
          some ⟨probe_key cfg o.1 o.2.1 o.2.2,
            (obs.map fun o2 => probe_key cfg o2.1 o2.2.1 o2.2.2).count
              (probe_key cfg o.1 o.2.1 o.2.2),
            USAGE_INIT +
              (((obs.map fun o2 => probe_key cfg o2.1 o2.2.1 o2.2.2).count
                  (probe_key cfg o.1 o.2.1 o.2.2) : ℚ) - 1) * USAGE_INCREASE⟩) ∧
    (∀ k tbl, tbl.length < cfg.maxProfileEntries → lookupEntry k tbl = none →
      profile_observe cfg.maxProfileEntries k tbl = some (tbl ++ [⟨k, 1, USAGE_INIT⟩])) ∧
    (∀ k tbl e0, lookupEntry k tbl = some e0 →
      profile_observe cfg.maxProfileEntries k tbl = some (tbl.map (bump_entry k))) := by
  refine ⟨fun p w q => by simp [probe_key, hpid, hqid], ?_,
    fun k tbl hlt h => profile_observe_fresh_roomy _ k tbl hlt h,
    fun k tbl e0 h => profile_observe_found _ k tbl e0 h⟩
  obtain ⟨t, ht, htlen, htinv⟩ :=
    profile_run_no_evict cfg.maxProfileEntries
      (obs.map fun o => probe_key cfg o.1 o.2.1 o.2.2) [] []
      (by simpa using hlen) (by simp)
      (by intro k; simp [lookupEntry])
  refine ⟨t, ht, ?_⟩
  intro o ho
  have hmem : probe_key cfg o.1 o.2.1 o.2.2 ∈ obs.map fun o2 => probe_key cfg o2.1 o2.2.1 o2.2.2 :=
    List.mem_map_of_mem _ ho
  have hcnt : 1 ≤ (obs.map fun o2 => probe_key cfg o2.1 o2.2.1 o2.2.2).count
      (probe_key cfg o.1 o.2.1 o.2.2) :=
    List.one_le_count_iff.mpr hmem
  refine ⟨hcnt, ?_⟩
  have hfin := htinv (probe_key cfg o.1 o.2.1 o.2.2)
  rw [List.nil_append] at hfin
  rw [if_neg (by omega)] at hfin
  rw [hfin]
  have hval : ((((obs.map fun o2 => probe_key cfg o2.1 o2.2.1 o2.2.2).count
      (probe_key cfg o.1 o.2.1 o.2.2)) : ℚ)) =
      USAGE_INIT +
        ((((obs.map fun o2 => probe_key cfg o2.1 o2.2.1 o2.2.2).count
            (probe_key cfg o.1 o.2.1 o.2.2)) : ℚ) - 1) * USAGE_INCREASE := by
    simp [USAGE_INIT, USAGE_INCREASE]
  rw [← hval]

/-- Witness for C3: three observations, one key repeated twice with a
process-granular configuration; the run completes with counter 2 and
usage 2 = USAGE_INIT + 1 * USAGE_INCREASE for the repeated key. -/
theorem claim_C3_witness :
    (((⟨true, true, 5, 4, 10, 10⟩ : Config).whetherProfilePid = true ∧
      (⟨true, true, 5, 4, 10, 10⟩ : Config).whetherProfileQueryId = true ∧
      ([(1, 2, 3), (1, 2, 3), (4, 5, 6)] : List (ℕ × ℕ × ℕ)).length ≤
        (⟨true, true, 5, 4, 10, 10⟩ : Config).maxProfileEntries) ∧
     ∀ p w q : ℕ, probe_key ⟨true, true, 5, 4, 10, 10⟩ p w q = ⟨p, w, q⟩) ∧
    profile_run 5 [] [⟨1, 2, 3⟩, ⟨1, 2, 3⟩, ⟨4, 5, 6⟩] =
      some [⟨⟨1, 2, 3⟩, 2, 2⟩, ⟨⟨4, 5, 6⟩, 1, 1⟩] := by
  refine ⟨⟨⟨rfl, rfl, by decide⟩, ?_⟩, by with_unfolding_all rfl⟩
  exact (claim_C3 ⟨true, true, 5, 4, 10, 10⟩ rfl rfl [(1, 2, 3), (1, 2, 3), (4, 5, 6)]
    (by decide)).1

/-- C4: for a ring of capacity C, after the probe has written N ≥ C
items in total starting from the fresh ring, the cursor equals N, the
item with write index j among the last C written resides at slot
j mod C, those last C write indices cover every slot (so the ring holds
exactly the last C items), and each write increments the cursor by
exactly one, so it never decreases. -/
theorem claim_C4 (C : ℕ) (hC : 0 < C) (I : List HistoryItem) (hN : C ≤ I.length) :
    (write_items C (initRing C) I).index = I.length ∧
    (∀ j (hj : j < I.length), I.length - C ≤ j →
      (write_items C (initRing C) I).items[j % C]? = some (some (I.get ⟨j, hj⟩))) ∧
    (∀ s, s < C → ∃ j, I.length - C ≤ j ∧ ∃ hj : j < I.length, j % C = s) ∧
    (∀ bufSize r it, (write_history_item bufSize r it).index = r.index + 1) := by
  refine ⟨?_, ?_, ?_, fun bufSize r it => rfl⟩
  · rw [write_items_index]
    rw [show (initRing C).index = 0 from rfl]
    omega
  · intro j hj hge
    have hres := write_items_get_last C hC I (initRing C) j hj ?_ ?_
    · rw [show (initRing C).index = 0 from rfl, Nat.zero_add] at hres
      exact hres
    · simp [initRing]
    · intro j2 hlt hlen2 heq
      rw [show (initRing C).index = 0 from rfl, Nat.zero_add, Nat.zero_add] at heq
      have hmod : Nat.ModEq C j j2 := heq.symm
      have hdvd : C ∣ j2 - j := (Nat.modEq_iff_dvd' (le_of_lt hlt)).mp hmod
      have hle : C ≤ j2 - j := Nat.le_of_dvd (by omega) hdvd
      omega
  · intro s hs
    have hbC : (I.length - C) % C < C := Nat.mod_lt _ hC
    have ht : (s + C - (I.length - C) % C) % C < C := Nat.mod_lt _ hC
    refine ⟨(I.length - C) + (s + C - (I.length - C) % C) % C, by omega, by omega, ?_⟩
    have m1 : Nat.ModEq C ((I.length - C) + (s + C - (I.length - C) % C) % C)
        ((I.length - C) % C + (s + C - (I.length - C) % C) % C) :=
      Nat.ModEq.add_right _ (Nat.mod_modEq (I.length - C) C).symm
    have m2 : Nat.ModEq C ((I.length - C) % C + (s + C - (I.length - C) % C) % C)
        ((I.length - C) % C + (s + C - (I.length - C) % C)) :=
      Nat.ModEq.add_left _ (Nat.mod_modEq (s + C - (I.length - C) % C) C)
    have m12 : ((I.length - C) + (s + C - (I.length - C) % C) % C) % C =
        ((I.length - C) % C + (s + C - (I.length - C) % C)) % C := m1.trans m2
    have heq2 : (I.length - C) % C + (s + C - (I.length - C) % C) = s + C := by omega
    rw [heq2, Nat.add_mod_right, Nat.mod_eq_of_lt hs] at m12
    exact m12

/-- Witness for C4 at capacity 2 and three written items. -/
theorem claim_C4_witness :
    ((0 : ℕ) < 2 ∧
      (2 : ℕ) ≤ ([⟨1, 1, 0, 10⟩, ⟨2, 2, 0, 11⟩, ⟨3, 3, 0, 12⟩] : List HistoryItem).length) ∧
    (write_items 2 (initRing 2) [⟨1, 1, 0, 10⟩, ⟨2, 2, 0, 11⟩, ⟨3, 3, 0, 12⟩]).index =
      ([⟨1, 1, 0, 10⟩, ⟨2, 2, 0, 11⟩, ⟨3, 3, 0, 12⟩] : List HistoryItem).length :=
  ⟨⟨by decide, by decide⟩,
    (claim_C4 2 (by decide) [⟨1, 1, 0, 10⟩, ⟨2, 2, 0, 11⟩, ⟨3, 3, 0, 12⟩] (by decide)).1⟩

/-- C5: in every loop iteration the sampler sets write_history exactly
when historyPeriod is nonzero and the elapsed milliseconds since the
last history sample reach historyPeriod (symmetrically for
write_profile); after a probe it resets only the timestamps of the
streams that actually sampled, so each stream's cadence is independent
of the other's, and a period of 0 disables that stream. -/
theorem claim_C5 (cfg : Config) (t : ℕ) (st : SamplerState) :
    ((pgws_collector_iteration cfg t st).write_history =
      decide (cfg.historyPeriod ≠ 0 ∧ cfg.historyPeriod ≤ millisecs_diff st.history_ts t)) ∧
    ((pgws_collector_iteration cfg t st).write_profile =
      decide (cfg.profilePeriod ≠ 0 ∧ cfg.profilePeriod ≤ millisecs_diff st.profile_ts t)) ∧
    ((pgws_collector_iteration cfg t st).next.history_ts =
      if (pgws_collector_iteration cfg t st).write_history then t else st.history_ts) ∧
    ((pgws_collector_iteration cfg t st).next.profile_ts =
      if (pgws_collector_iteration cfg t st).write_profile then t else st.profile_ts) ∧
    ((pgws_collector_iteration { cfg with historyPeriod := 0 } t st).write_history = false) ∧
    ((pgws_collector_iteration { cfg with profilePeriod := 0 } t st).write_profile = false) := by
  refine ⟨rfl, rfl, rfl, rfl, by simp [pgws_collector_iteration], by simp [pgws_collector_iteration]⟩

/-- C6: in every loop iteration the next sleep duration is the minimum
over the enabled streams of the remaining time (period minus elapsed,
floored at 0 by truncating subtraction): the minimum of both remaining
times when both periods are nonzero, the single remaining time when
exactly one period is nonzero, and an indefinite wait (none, so the
WaitLatch call carries no WL_TIMEOUT flag and wakes only on external
signals) when both periods are zero. -/
theorem claim_C6 (cfg : Config) (t : ℕ) (st : SamplerState) :
    (pgws_collector_iteration cfg t st).timeout =
      (if cfg.historyPeriod = 0 ∧ cfg.profilePeriod = 0 then none
       else if cfg.profilePeriod = 0 then
         some (cfg.historyPeriod -
           (if cfg.historyPeriod ≠ 0 ∧ cfg.historyPeriod ≤ millisecs_diff st.history_ts t
            then 0 else millisecs_diff st.history_ts t))
       else if cfg.historyPeriod = 0 then
         some (cfg.profilePeriod -
           (if cfg.profilePeriod ≠ 0 ∧ cfg.profilePeriod ≤ millisecs_diff st.profile_ts t
            then 0 else millisecs_diff st.profile_ts t))
       else
         some (min
           (cfg.historyPeriod -
             (if cfg.historyPeriod ≠ 0 ∧ cfg.historyPeriod ≤ millisecs_diff st.history_ts t
              then 0 else millisecs_diff st.history_ts t))
           (cfg.profilePeriod -
             (if cfg.profilePeriod ≠ 0 ∧ cfg.profilePeriod ≤ millisecs_diff st.profile_ts t
              then 0 else millisecs_diff st.profile_ts t)))) := by
  by_cases hh : cfg.historyPeriod = 0 <;> by_cases hp : cfg.profilePeriod = 0 <;>
    by_cases h1 : cfg.historyPeriod ≤ millisecs_diff st.history_ts t <;>
    by_cases h2 : cfg.profilePeriod ≤ millisecs_diff st.profile_ts t <;>
    simp [pgws_collector_iteration, timeout_sub, hh, hp, h1, h2]

/-- C7: a slot whose pid is 0 or whose wait_event_info is 0 produces no
history item and no profile mutation: probe_slot leaves the state
unchanged, and a whole probe_waits pass over any slot list containing
such a slot equals the pass over the list without it. -/
theorem claim_C7 (cfg : Config) (wh wp : Bool) (now : ℕ) (proc : ProcSlot)
    (h : proc.pid = 0 ∨ proc.wait_event_info = 0) :
    (∀ st, probe_slot cfg wh wp now proc st = some st) ∧
    (∀ procs1 procs2 st,
      probe_waits cfg wh wp now (procs1 ++ proc :: procs2) st =
        probe_waits cfg wh wp now (procs1 ++ procs2) st) := by
  have hslot : ∀ st, probe_slot cfg wh wp now proc st = some st := by
    intro st
    rcases h with h | h <;> simp [probe_slot, h]
  refine ⟨hslot, ?_⟩
  intro procs1 procs2 st
  unfold probe_waits
  rw [List.foldlM_append, List.foldlM_append]
  cases hfold : List.foldlM (fun s proc => probe_slot cfg wh wp now proc s) st procs1 with
  | none => rfl
  | some st1 => simp [List.foldlM_cons, hslot]

/-- Witness for C7 at a concrete idle slot and slot lists. -/
theorem claim_C7_witness :
    ((⟨7, 0, 3⟩ : ProcSlot).pid = 0 ∨ (⟨7, 0, 3⟩ : ProcSlot).wait_event_info = 0) ∧
    (∀ st, probe_slot ⟨true, true, 4, 2, 10, 10⟩ true true 5 ⟨7, 0, 3⟩ st = some st) := by
  refine ⟨Or.inr rfl, ?_⟩
  exact (claim_C7 ⟨true, true, 4, 2, 10, 10⟩ true true 5 ⟨7, 0, 3⟩ (Or.inr rfl)).1

/-- C9: with a positive capacity bound, every eviction call on a
nonempty profile table removes at least one entry (the victim count is
at least 1 whenever the table is nonempty), so the make-space loop run
before inserting a new key terminates and the observation completes;
with capacity bound 0 an eviction call on the empty table removes zero
entries and the make-space loop never exits. -/
theorem claim_C9 (m : ℕ) :
    (∀ n, 1 ≤ n → 1 ≤ nvictimsOf n) ∧
    (∀ tbl : ProfileTable, 1 ≤ tbl.length → (pgws_entry_dealloc tbl).length < tbl.length) ∧
    (1 ≤ m → ∀ k tbl, ∃ t, profile_observe m k tbl = some t) ∧
    pgws_entry_dealloc [] = [] ∧
    (∀ fuel, make_space 0 fuel [] = none) := by
  exact ⟨nvictimsOf_pos, pgws_entry_dealloc_length_lt,
    fun hm k tbl => profile_observe_total m hm k tbl,
    pgws_entry_dealloc_nil, make_space_zero_none⟩

/-- Witness for C9: capacity 1, a fresh key against a full one-entry
table; the observation completes. -/
theorem claim_C9_witness :
    (1 ≤ 1 ∧ 1 ≤ ([(⟨⟨1, 5, 0⟩, 1, 1⟩ : ProfileHashEntry)] : ProfileTable).length) ∧
    (∃ t, profile_observe 1 ⟨2, 5, 0⟩ [(⟨⟨1, 5, 0⟩, 1, 1⟩ : ProfileHashEntry)] = some t) := by
  exact ⟨⟨by decide, by decide⟩,
    (claim_C9 1).2.2.1 (by decide) ⟨2, 5, 0⟩ [⟨⟨1, 5, 0⟩, 1, 1⟩]⟩

/-- C10: whenever eviction runs on a table holding at most
USAGE_DEALLOC_MIN_NUM entries, the victim count equals the table size,
so the single eviction pass removes every entry; in particular with a
capacity bound of at most USAGE_DEALLOC_MIN_NUM, inserting a new key at
capacity discards all previously accumulated counters and leaves only
the fresh entry. -/
theorem claim_C10 (m : ℕ) :
    (∀ n, n ≤ USAGE_DEALLOC_MIN_NUM → nvictimsOf n = n) ∧
    (∀ tbl : ProfileTable, tbl.length ≤ USAGE_DEALLOC_MIN_NUM → pgws_entry_dealloc tbl = []) ∧
    (1 ≤ m → m ≤ USAGE_DEALLOC_MIN_NUM →
      ∀ k tbl, tbl.length = m → lookupEntry k tbl = none →
        profile_observe m k tbl = some [⟨k, 1, USAGE_INIT⟩]) := by
  refine ⟨nvictimsOf_of_le_min, pgws_entry_dealloc_eq_nil, ?_⟩
  intro hm hmle k tbl hlen hlk
  obtain ⟨m1, rfl⟩ : ∃ m1, m = m1 + 1 := ⟨m - 1, by omega⟩
  have hd : pgws_entry_dealloc tbl = [] := pgws_entry_dealloc_eq_nil tbl (by omega)
  unfold profile_observe
  rw [hlk, hlen]
  simp [make_space, hd, hlen]

/-- Witness for C10: capacity 2 with USAGE_DEALLOC_MIN_NUM = 10; a full
table of two entries is emptied by the eviction pass and only the fresh
entry remains. -/
theorem claim_C10_witness :
    (1 ≤ 2 ∧ 2 ≤ USAGE_DEALLOC_MIN_NUM ∧
      ([⟨⟨1, 5, 0⟩, 3, 3⟩, ⟨⟨2, 5, 0⟩, 4, 4⟩] : ProfileTable).length = 2 ∧
      lookupEntry ⟨3, 5, 0⟩ [⟨⟨1, 5, 0⟩, 3, 3⟩, ⟨⟨2, 5, 0⟩, 4, 4⟩] = none) ∧
    profile_observe 2 ⟨3, 5, 0⟩ [⟨⟨1, 5, 0⟩, 3, 3⟩, ⟨⟨2, 5, 0⟩, 4, 4⟩] =
      some [⟨⟨3, 5, 0⟩, 1, USAGE_INIT⟩] := by
  exact ⟨⟨by decide, by decide, by decide, by decide⟩,
    (claim_C10 2).2.2 (by decide) (by decide) ⟨3, 5, 0⟩
      [⟨⟨1, 5, 0⟩, 3, 3⟩, ⟨⟨2, 5, 0⟩, 4, 4⟩] (by decide) (by decide)⟩

/-- C8: usage decay happens only in the eviction routine and there to
every entry: every entry surviving an eviction pass is the once-decayed
version of an original entry (usage multiplied by
USAGE_DECREASE_FACTOR = 99/100 before the sort), while an ordinary
observation either bumps the matched entry's usage upward or, when no
eviction is needed, appends a fresh entry leaving all old usages
unchanged — it never decreases any entry's usage. -/
theorem claim_C8 (m : ℕ) :
    USAGE_DECREASE_FACTOR = 99 / 100 ∧
    (∀ e0 : ProfileHashEntry, (decay_entry e0).usage = e0.usage * USAGE_DECREASE_FACTOR ∧
      (decay_entry e0).key = e0.key ∧ (decay_entry e0).counter = e0.counter) ∧
    (∀ tbl : ProfileTable, ∀ e ∈ pgws_entry_dealloc tbl, ∃ e0 ∈ tbl, e = decay_entry e0) ∧
    (∀ k tbl e0, lookupEntry k tbl = some e0 →
      profile_observe m k tbl = some (tbl.map (bump_entry k)) ∧
      ∀ e : ProfileHashEntry, e.usage ≤ (bump_entry k e).usage) ∧
    (∀ k tbl, tbl.length < m → lookupEntry k tbl = none →
      profile_observe m k tbl = some (tbl ++ [⟨k, 1, USAGE_INIT⟩])) := by
  refine ⟨rfl, fun e0 => ⟨rfl, rfl, rfl⟩, ?_, ?_, ?_⟩
  · intro tbl e he
    have hmem : e ∈ tbl.map decay_entry := by
      simp only [pgws_entry_dealloc] at he
      exact List.mem_of_mem_filter he
    obtain ⟨e0, he0, heq⟩ := List.mem_map.mp hmem
    exact ⟨e0, he0, heq.symm⟩
  · intro k tbl e0 h
    refine ⟨by unfold profile_observe; rw [h], fun e => ?_⟩
    unfold bump_entry
    by_cases hk : e.key = k
    · rw [if_pos hk]
      show e.usage ≤ e.usage + USAGE_INCREASE
      have hinc : (0 : ℚ) ≤ USAGE_INCREASE := by norm_num [USAGE_INCREASE]
      linarith
    · simp [hk]
  · intro k tbl hlt h
    unfold profile_observe
    rw [h]
    unfold make_space
    rw [if_neg (by omega)]
    rfl

/-- Witness for C8: an observation of an existing key bumps it and a
fresh observation below capacity appends, touching no old usage. -/
theorem claim_C8_witness :
    (lookupEntry ⟨1, 5, 0⟩ [(⟨⟨1, 5, 0⟩, 2, 5⟩ : ProfileHashEntry)] = some ⟨⟨1, 5, 0⟩, 2, 5⟩) ∧
    (profile_observe 4 ⟨1, 5, 0⟩ [(⟨⟨1, 5, 0⟩, 2, 5⟩ : ProfileHashEntry)] =
        some ([⟨⟨1, 5, 0⟩, 2, 5⟩].map (bump_entry ⟨1, 5, 0⟩)) ∧
      ∀ e : ProfileHashEntry, e.usage ≤ (bump_entry ⟨1, 5, 0⟩ e).usage) := by
  exact ⟨by decide,
    (claim_C8 4).2.2.2.1 ⟨1, 5, 0⟩ [⟨⟨1, 5, 0⟩, 2, 5⟩] ⟨⟨1, 5, 0⟩, 2, 5⟩ (by decide)⟩

end PgWaitSampling
